import Mathlib

/-!
Verification of the task-store and UI layer of a browser to-do application
(`src/db/indexedDB.ts`, `AddTaskForm.tsx`, `EditTaskForm.tsx`, `TaskList.tsx`,
`App.tsx`).

The store is a single IndexedDB object store `"tasks"` with `keyPath "id"` and
`autoIncrement: true`.  We embed it as a list of records kept in ascending key
order (IndexedDB enumerates records in key order) together with the key
generator's current number.  Per the IndexedDB specification the generator
starts at 1, is advanced by `add`, and is bumped past any explicit numeric key
stored with `put`.
-/

namespace TodoApp

/-- A task record `{id, title}` as stored in the `"tasks"` object store. -/
structure Task where
  id : Nat
  title : String
deriving DecidableEq, Repr

/-- The object store: its records (in ascending key order, as IndexedDB keeps
them) and the key generator's current number. -/
structure Store where
  records : List Task
  nextKey : Nat
deriving DecidableEq, Repr

/-- Source `initDB`: opens/creates the database.  A fresh store is empty and its key
generator starts at 1. -/
def initDB : Store := ⟨[], 1⟩

/-- Insert a record into a key-ordered record list, before the first record of
key ≥ its own (how IndexedDB files a record among the existing ones). -/
def insertSorted (u : Task) : List Task → List Task
  | [] => [u]
  | t :: ts => if u.id ≤ t.id then u :: t :: ts else t :: insertSorted u ts

/-- Source `getAllTasks`: `db.getAll(storeName)` returns every record, in key order. -/
def getAllTasks (s : Store) : List Task := s.records

/-- Source `addTask({title})`: `db.add` with `autoIncrement` assigns the generator's
current number as the new record's `id`, advances the generator, and returns
the assigned key. -/
def addTask (s : Store) (title : String) : Store × Nat :=
  (⟨insertSorted ⟨s.nextKey, title⟩ s.records, s.nextKey + 1⟩, s.nextKey)

/-- Source `deleteTask(id)`: `db.delete` removes the record with that key if present;
it is a no-op otherwise and never touches the key generator. -/
def deleteTask (s : Store) (id : Nat) : Store :=
  ⟨s.records.filter (fun t => t.id ≠ id), s.nextKey⟩

/-- Source `updateTask({id, title})`: `db.put` stores the record under its explicit
key `id`, replacing any record already there, and bumps the key generator past
`id` when `id` is at or beyond the generator's current number (IndexedDB's
"possibly update the key generator" step). -/
def updateTask (s : Store) (id : Nat) (title : String) : Store :=
  ⟨insertSorted ⟨id, title⟩ (s.records.filter (fun t => t.id ≠ id)),
   max s.nextKey (id + 1)⟩

/-- The three mutating store operations the UI can issue. -/
inductive Op where
  | add (title : String)
  | update (id : Nat) (title : String)
  | del (id : Nat)

/-- Apply one operation to the store (discarding `add`'s returned key). -/
def applyOp (s : Store) : Op → Store
  | .add title => (addTask s title).1
  | .update id title => updateTask s id title
  | .del id => deleteTask s id

/-- Run a sequence of operations left to right. -/
def runOps (s : Store) : List Op → Store
  | [] => s
  | op :: ops => runOps (applyOp s op) ops

/-- Look up the title stored under a key in a record list (first match). -/
def lookupT (id : Nat) : List Task → Option String
  | [] => none
  | t :: ts => if t.id = id then some t.title else lookupT id ts

/-- Record lists are strictly ascending in key. -/
def IdSorted (l : List Task) : Prop := l.Pairwise (fun a b => a.id < b.id)

/-- Store invariant: records are in strictly ascending key order and every
stored key is below the key generator's current number. -/
def Inv (s : Store) : Prop :=
  IdSorted s.records ∧ ∀ t ∈ s.records, t.id < s.nextKey

/-- Modelled from the spec: the "net effect" of an operation sequence, as a
partial map from id to title — `add` binds a fresh id to the title, `update`
binds the given id (insert-or-replace), `delete` unbinds it.  This is the
spec-side abstraction that `getAll()` is claimed to reflect exactly. -/
def specApply (m : Nat → Option String) (k : Nat) : Op → (Nat → Option String) × Nat
  | .add title => (fun i => if i = k then some title else m i, k + 1)
  | .update id title => (fun i => if i = id then some title else m i, max k (id + 1))
  | .del id => (fun i => if i = id then none else m i, k)

/-- Run the spec-side net-effect semantics over a sequence of operations. -/
def specRun (m : Nat → Option String) (k : Nat) : List Op → (Nat → Option String) × Nat
  | [] => (m, k)
  | op :: ops => specRun (specApply m k op).1 (specApply m k op).2 ops

/-- The net effect of a sequence run from an empty store. -/
def netEffect (ops : List Op) : Nat → Option String :=
  (specRun (fun _ => none) 1 ops).1

/-- Refinement relation: the concrete store holds exactly the bindings of the
abstract map, and the key generators agree. -/
def Tracks (s : Store) (m : Nat → Option String) (k : Nat) : Prop :=
  s.nextKey = k ∧ ∀ id, lookupT id s.records = m id

/-- The ids handed back by `addTask` (IndexedDB's generated keys) along a run:
the key generator's current number at each `add` in the sequence. -/
def assignedIds : Store → List Op → List Nat
  | _, [] => []
  | s, op :: ops =>
    (match op with
     | Op.add _ => [s.nextKey]
     | _ => []) ++ assignedIds (applyOp s op) ops

/-- The `TaskList` edit state transition: clicking Edit runs
`setEditingTask(task)`, unconditionally replacing the previous value. -/
def startEdit (_st : Option Task) (t : Task) : Option Task := some t

/-- The `TaskList` Cancel handler: `setEditingTask(null)`. -/
def cancelEdit (_st : Option Task) : Option Task := none

/-- The `TaskList` render condition for a row: `editingTask?.id === task.id`
selects the inline edit form; otherwise the row renders in read mode. -/
def inEditMode (editing : Option Task) (t : Task) : Bool :=
  match editing with
  | some e => e.id == t.id
  | none => false

/-- JavaScript's `String.prototype.trim()`: drop whitespace from both ends
(embedded directly over the character list so the kernel can evaluate it). -/
def trimStr (s : String) : String :=
  ⟨((s.data.dropWhile Char.isWhitespace).reverse.dropWhile Char.isWhitespace).reverse⟩

/-- Source `AddTaskForm.handleSubmit`: `if (title.trim()) { await addTask({title}); }`
— the store call happens only when the trimmed title is nonempty, and the
title is passed through untrimmed.  The boolean records whether a store call
was made. -/
def addFormSubmit (s : Store) (title : String) : Store × Bool :=
  if trimStr title = "" then (s, false) else ((addTask s title).1, true)

/-- Source `EditTaskForm.handleSubmit`:
`if (title.trim()) { await updateTask({id: task.id, title}); }` — same
guard, the untrimmed title is stored under the task's id. -/
def editFormSubmit (s : Store) (id : Nat) (title : String) : Store × Bool :=
  if trimStr title = "" then (s, false) else (updateTask s id title, true)

/-- Does the second character list start with the first (the needle)?  A
boolean leading-match test. -/
def leadsWith : List Char → List Char → Bool
  | [], _ => true
  | _ :: _, [] => false
  | a :: as, b :: bs => a == b && leadsWith as bs

/-- Does the needle occur as a contiguous run inside the haystack? -/
def occursIn (n : List Char) : List Char → Bool
  | [] => leadsWith n []
  | c :: cs => leadsWith n (c :: cs) || occursIn n cs

/-- JavaScript's `String.prototype.toLowerCase()` (ASCII range), embedded
over the character list so the kernel can evaluate it. -/
def lowerStr (s : String) : String :=
  ⟨s.data.map Char.toLower⟩

/-- Modelled from the spec: the View Model's search predicate.  The spec
describes a search term held by the View Model with "free-text,
case-insensitive substring match against `title`"; `App.tsx` under `src/`
holds no search state, so the predicate is reconstructed from the spec's
words: lowercase both strings and test substring containment. -/
def matchesSearch (term : String) (t : Task) : Bool :=
  occursIn (lowerStr term).data (lowerStr t.title).data

/-- Modelled from the spec: the subset of the in-memory snapshot that the
search term lets through to rendering. -/
def filterTasks (term : String) (tasks : List Task) : List Task :=
  tasks.filter (matchesSearch term)

/-- The two-task snapshot used by the spec's search example. -/
def demoSnapshot : List Task := [⟨1, "Buy milk"⟩, ⟨2, "Walk dog"⟩]

theorem mem_insertSorted {a u : Task} {l : List Task} :
    a ∈ insertSorted u l ↔ a = u ∨ a ∈ l := by
  induction l with
  | nil => simp [insertSorted]
  | cons t ts ih =>
    by_cases h : u.id ≤ t.id
    · simp [insertSorted, h]
    · simp [insertSorted, h, ih]
      tauto

theorem lookupT_insertSorted (u : Task) (l : List Task) (id : Nat) :
    lookupT id (insertSorted u l) =
      if u.id = id then some u.title else lookupT id l := by
  induction l with
  | nil => simp [insertSorted, lookupT]
  | cons t ts ih =>
    by_cases h : u.id ≤ t.id
    · simp [insertSorted, h, lookupT]
    · have hne : ¬ (u.id = t.id) := by omega
      simp only [insertSorted, if_neg h, lookupT, ih]
      by_cases ht : t.id = id
      · have : ¬ (u.id = id) := by omega
        simp [ht, this]
      · simp [ht]

theorem lookupT_filter_ne (j id : Nat) (l : List Task) :
    lookupT id (l.filter (fun t => t.id ≠ j)) =
      if id = j then none else lookupT id l := by
  simp only [ne_eq, decide_not]
  induction l with
  | nil => simp [lookupT]
  | cons t ts ih =>
    by_cases h : t.id = j
    · rw [List.filter_cons_of_neg (by simp [h])]
      rw [ih]
      by_cases hij : id = j
      · simp [hij]
      · have : ¬ (t.id = id) := by omega
        simp [lookupT, this, hij]
    · rw [List.filter_cons_of_pos (by simpa using h)]
      by_cases ht : t.id = id
      · have : ¬ (id = j) := by omega
        simp [lookupT, ht, this]
      · simp [lookupT, ht, ih]

theorem lookupT_mem {id : Nat} {tl : String} {l : List Task}
    (h : lookupT id l = some tl) : Task.mk id tl ∈ l := by
  induction l with
  | nil => simp [lookupT] at h
  | cons t ts ih =>
    by_cases ht : t.id = id
    · simp [lookupT, ht] at h
      have heq : t = Task.mk id tl := by cases t; simp_all
      rw [← heq]
      exact List.mem_cons_self t ts
    · simp [lookupT, ht] at h
      exact List.mem_cons_of_mem t (ih h)

theorem mem_lookupT {id : Nat} {tl : String} {l : List Task}
    (hs : IdSorted l) (h : Task.mk id tl ∈ l) : lookupT id l = some tl := by
  induction l with
  | nil => simp at h
  | cons t ts ih =>
    rcases List.mem_cons.mp h with h | h
    · simp [lookupT, ← h]
    · have hlt : t.id < id := by
        have := (List.pairwise_cons.mp hs).1 _ h
        simpa using this
      have : ¬ (t.id = id) := by omega
      simp only [lookupT, if_neg this]
      exact ih (List.pairwise_cons.mp hs).2 h

theorem idSorted_insertSorted {u : Task} {l : List Task}
    (hs : IdSorted l) (hne : ∀ x ∈ l, x.id ≠ u.id) :
    IdSorted (insertSorted u l) := by
  induction l with
  | nil => simp [insertSorted, IdSorted]
  | cons t ts ih =>
    rcases List.pairwise_cons.mp hs with ⟨hhead, htail⟩
    by_cases h : u.id ≤ t.id
    · have hut : u.id < t.id :=
        lt_of_le_of_ne h (fun he => hne t (List.mem_cons_self t ts) he.symm)
      unfold insertSorted
      rw [if_pos h]
      refine List.pairwise_cons.mpr ⟨?_, hs⟩
      intro b hb
      rcases List.mem_cons.mp hb with rfl | hb
      · exact hut
      · exact lt_trans hut (hhead b hb)
    · unfold insertSorted
      rw [if_neg h]
      refine List.pairwise_cons.mpr
        ⟨?_, ih htail (fun x hx => hne x (List.mem_cons_of_mem t hx))⟩
      intro b hb
      rcases mem_insertSorted.mp hb with rfl | hb
      · omega
      · exact hhead b hb

theorem idSorted_filter {l : List Task} (p : Task → Bool) (hs : IdSorted l) :
    IdSorted (l.filter p) :=
  List.Pairwise.sublist (List.filter_sublist l) hs

theorem inv_initDB : Inv initDB := by
  constructor <;> simp [initDB, IdSorted]

theorem inv_applyOp {s : Store} (h : Inv s) (op : Op) : Inv (applyOp s op) := by
  obtain ⟨hs, hb⟩ := h
  cases op with
  | add title =>
    refine ⟨?_, ?_⟩
    · simp only [applyOp, addTask]
      exact idSorted_insertSorted hs (fun x hx => by have := hb x hx; simp; omega)
    · intro t ht
      simp only [applyOp, addTask] at ht ⊢
      rcases mem_insertSorted.mp ht with rfl | ht
      · show s.nextKey < s.nextKey + 1
        omega
      · have := hb t ht
        omega
  | update id title =>
    refine ⟨?_, ?_⟩
    · simp only [applyOp, updateTask]
      refine idSorted_insertSorted (idSorted_filter _ hs) ?_
      intro x hx
      have := (List.mem_filter.mp hx).2
      simpa using this
    · intro t ht
      simp only [applyOp, updateTask] at ht ⊢
      rcases mem_insertSorted.mp ht with rfl | ht
      · show id < max s.nextKey (id + 1)
        omega
      · have := hb t (List.mem_of_mem_filter ht)
        omega
  | del id =>
    refine ⟨idSorted_filter _ hs, ?_⟩
    intro t ht
    simp only [applyOp, deleteTask] at ht ⊢
    exact hb t (List.mem_of_mem_filter ht)

theorem inv_runOps {s : Store} (h : Inv s) (ops : List Op) : Inv (runOps s ops) := by
  induction ops generalizing s with
  | nil => exact h
  | cons op ops ih => exact ih (inv_applyOp h op)

theorem tracks_applyOp {s : Store} {m : Nat → Option String} {k : Nat}
    (h : Tracks s m k) (op : Op) :
    Tracks (applyOp s op) (specApply m k op).1 (specApply m k op).2 := by
  obtain ⟨hk, hm⟩ := h
  cases op with
  | add title =>
    refine ⟨by simp [applyOp, addTask, specApply, hk], ?_⟩
    intro id
    simp only [applyOp, addTask, specApply]
    rw [lookupT_insertSorted]
    by_cases hid : id = k
    · simp [hid, hk]
    · have hne : ¬ (s.nextKey = id) := by omega
      simp [hid, hne, hm]
  | update j title =>
    refine ⟨by simp [applyOp, updateTask, specApply, hk], ?_⟩
    intro id
    simp only [applyOp, updateTask, specApply]
    rw [lookupT_insertSorted, lookupT_filter_ne]
    by_cases hid : id = j
    · simp [hid]
    · have hne : ¬ (j = id) := by omega
      simp [hid, hne, hm]
  | del j =>
    refine ⟨by simp [applyOp, deleteTask, specApply, hk], ?_⟩
    intro id
    simp only [applyOp, deleteTask, specApply]
    rw [lookupT_filter_ne]
    by_cases hid : id = j
    · simp [hid]
    · simp [hid, hm]

theorem tracks_runOps {s : Store} {m : Nat → Option String} {k : Nat}
    (h : Tracks s m k) (ops : List Op) :
    Tracks (runOps s ops) (specRun m k ops).1 (specRun m k ops).2 := by
  induction ops generalizing s m k with
  | nil => exact h
  | cons op ops ih => exact ih (tracks_applyOp h op)

/-- C1: after any sequence of add/update/delete operations run from a fresh
store, `getAll()` returns exactly the net effect of the sequence: a record
`{id, title}` is present iff the sequence's net effect binds `id` to `title`
(no lost records, no phantom records). -/
theorem getAll_reflects_net_effect (ops : List Op) (id : Nat) (title : String) :
    Task.mk id title ∈ getAllTasks (runOps initDB ops) ↔
      netEffect ops id = some title := by
  have htr := @tracks_runOps initDB (fun _ => none) 1 ⟨rfl, fun _ => rfl⟩ ops
  have hinv := inv_runOps inv_initDB ops
  constructor
  · intro h
    have := mem_lookupT hinv.1 h
    rw [htr.2 id] at this
    exact this
  · intro h
    have h' : (specRun (fun _ => none) 1 ops).1 id = some title := h
    exact lookupT_mem ((htr.2 id).trans h')

theorem lookupT_eq_none {id : Nat} {l : List Task} :
    lookupT id l = none ↔ ∀ t ∈ l, t.id ≠ id := by
  induction l with
  | nil => simp [lookupT]
  | cons t ts ih =>
    by_cases ht : t.id = id
    · simp [lookupT, ht]
    · simp [lookupT, ht, ih]

theorem length_insertSorted (u : Task) (l : List Task) :
    (insertSorted u l).length = l.length + 1 := by
  induction l with
  | nil => rfl
  | cons t ts ih =>
    by_cases h : u.id ≤ t.id
    · simp [insertSorted, h]
    · simp [insertSorted, h, ih]

theorem filter_ne_of_absent {l : List Task} {j : Nat} (h : ∀ t ∈ l, t.id ≠ j) :
    l.filter (fun t => t.id ≠ j) = l :=
  List.filter_eq_self.mpr (fun a ha => by simpa using h a ha)

theorem map_fix {f : Task → Task} {l : List Task} (h : ∀ x ∈ l, f x = x) :
    l.map f = l := by
  induction l with
  | nil => rfl
  | cons t ts ih =>
    rw [List.map_cons, h t (List.mem_cons_self t ts),
      ih (fun x hx => h x (List.mem_cons_of_mem t hx))]

theorem insertSorted_cons_of_le {u t : Task} {l : List Task} (h : u.id ≤ t.id) :
    insertSorted u (t :: l) = u :: t :: l := by
  simp only [insertSorted]
  rw [if_pos h]

theorem insertSorted_cons_of_gt {u t : Task} {l : List Task} (h : t.id < u.id) :
    insertSorted u (t :: l) = t :: insertSorted u l := by
  simp only [insertSorted]
  rw [if_neg (by omega)]

theorem insertSorted_eq_cons {u : Task} {l : List Task}
    (h : ∀ x ∈ l, u.id < x.id) : insertSorted u l = u :: l := by
  cases l with
  | nil => rfl
  | cons t ts => exact insertSorted_cons_of_le (le_of_lt (h t (List.mem_cons_self t ts)))

theorem updateRecords_eq_map {l : List Task} {id : Nat} {nt : String}
    (hs : IdSorted l) (h : ∃ tl, lookupT id l = some tl) :
    insertSorted ⟨id, nt⟩ (l.filter (fun t => t.id ≠ id)) =
      l.map (fun t => if t.id = id then ⟨id, nt⟩ else t) := by
  induction l with
  | nil =>
    obtain ⟨tl, h⟩ := h
    simp [lookupT] at h
  | cons t ts ih =>
    rcases List.pairwise_cons.mp hs with ⟨hhead, htail⟩
    by_cases ht : t.id = id
    · have hts : ∀ x ∈ ts, x.id ≠ id := fun x hx => by have := hhead x hx; omega
      rw [List.filter_cons_of_neg (by simp [ht])]
      rw [filter_ne_of_absent hts]
      rw [insertSorted_eq_cons (fun x hx => by
        have := hhead x hx
        show id < x.id
        omega)]
      have hmap : ts.map (fun t => if t.id = id then (⟨id, nt⟩ : Task) else t) = ts :=
        map_fix (fun x hx => if_neg (hts x hx))
      simp [ht, hmap]
    · obtain ⟨tl, hl⟩ := h
      simp only [lookupT, if_neg ht] at hl
      have hmem : Task.mk id tl ∈ ts := lookupT_mem hl
      have htid : t.id < id := by
        have := hhead _ hmem
        simpa using this
      rw [List.filter_cons_of_pos (by simp [ht])]
      rw [insertSorted_cons_of_gt htid]
      rw [ih htail ⟨tl, hl⟩, List.map_cons]
      congr 1
      simp [ht]

/-- C4: `delete(id)` on an id not present in the store is a no-op: the
resulting store (and hence `getAll()`) is unchanged, and `deleteTask` being a
total function, no error is raised. -/
theorem delete_absent_is_noop (s : Store) (id : Nat)
    (h : ∀ t ∈ s.records, t.id ≠ id) :
    getAllTasks (deleteTask s id) = getAllTasks s ∧ deleteTask s id = s := by
  have h2 : deleteTask s id = s := by
    unfold deleteTask
    rw [filter_ne_of_absent h]
  exact ⟨by rw [h2], h2⟩

/-- C4 witness: deleting id 3 from the fresh (empty) store leaves it
unchanged. -/
theorem delete_absent_is_noop_witness :
    getAllTasks (deleteTask initDB 3) = getAllTasks initDB ∧
      deleteTask initDB 3 = initDB :=
  delete_absent_is_noop initDB 3 (by simp [initDB])

/-- C3: `update(id, title)` on an id not present in the store silently
creates the record (insert-or-replace): `updateTask` is a total function (no
failure), afterwards `id` is bound to `title`, the store has exactly one more
record, and every other id's binding is unchanged. -/
theorem update_absent_creates (s : Store) (id : Nat) (title : String)
    (h : lookupT id s.records = none) :
    lookupT id (getAllTasks (updateTask s id title)) = some title ∧
    (getAllTasks (updateTask s id title)).length = (getAllTasks s).length + 1 ∧
    ∀ j, j ≠ id → lookupT j (getAllTasks (updateTask s id title)) =
      lookupT j (getAllTasks s) := by
  refine ⟨?_, ?_, ?_⟩
  · simp only [getAllTasks, updateTask]
    rw [lookupT_insertSorted]
    simp
  · simp only [getAllTasks, updateTask]
    rw [length_insertSorted, filter_ne_of_absent (lookupT_eq_none.mp h)]
  · intro j hj
    simp only [getAllTasks, updateTask]
    rw [lookupT_insertSorted, lookupT_filter_ne]
    have h1 : ¬ (id = j) := fun he => hj he.symm
    simp [h1, hj]

/-- C3 witness: updating the absent id 5 in the fresh store creates the
record `{5, "x"}`, grows the store by one record, and leaves id 3 unbound. -/
theorem update_absent_creates_witness :
    lookupT 5 (getAllTasks (updateTask initDB 5 "x")) = some "x" ∧
    (getAllTasks (updateTask initDB 5 "x")).length = (getAllTasks initDB).length + 1 ∧
    lookupT 3 (getAllTasks (updateTask initDB 5 "x")) = lookupT 3 (getAllTasks initDB) := by
  have h := update_absent_creates initDB 5 "x" rfl
  exact ⟨h.1, h.2.1, h.2.2 3 (by decide)⟩

/-- C5: `update(id, newTitle)` on an id bound in the store changes only that
record's title: `getAll()` afterwards is the previous record list with the
record at `id` replaced by `{id, newTitle}` (same id) and every other record
literally unchanged.  Reachable stores satisfy `IdSorted` by `inv_runOps`. -/
theorem update_existing_changes_only_title (s : Store) (id : Nat)
    (oldT newT : String) (hs : IdSorted s.records)
    (h : lookupT id s.records = some oldT) :
    getAllTasks (updateTask s id newT) =
      (getAllTasks s).map (fun t => if t.id = id then Task.mk id newT else t) := by
  simp only [getAllTasks, updateTask]
  exact updateRecords_eq_map hs ⟨oldT, h⟩

/-- C5 witness: on a store holding `{1, "a"}`, updating id 1 to `"b"` yields
exactly the old list with that one record's title replaced. -/
theorem update_existing_changes_only_title_witness :
    getAllTasks (updateTask (addTask initDB "a").1 1 "b") =
      (getAllTasks (addTask initDB "a").1).map
        (fun t => if t.id = 1 then Task.mk 1 "b" else t) :=
  update_existing_changes_only_title (addTask initDB "a").1 1 "a" "b"
    (by simp [IdSorted, addTask, initDB, insertSorted]) rfl

theorem nextKey_le_applyOp (s : Store) (op : Op) :
    s.nextKey ≤ (applyOp s op).nextKey := by
  cases op <;> simp [applyOp, addTask, updateTask, deleteTask]

theorem nextKey_le_runOps (s : Store) (ops : List Op) :
    s.nextKey ≤ (runOps s ops).nextKey := by
  induction ops generalizing s with
  | nil => exact le_refl _
  | cons op ops ih => exact le_trans (nextKey_le_applyOp s op) (ih (applyOp s op))

theorem assignedIds_lt (ops : List Op) (s : Store) (i : Nat)
    (h : i ∈ assignedIds s ops) : i < (runOps s ops).nextKey := by
  induction ops generalizing s with
  | nil => simp [assignedIds] at h
  | cons op ops ih =>
    simp only [assignedIds, List.mem_append] at h
    rcases h with h | h
    · cases op with
      | add title =>
        simp at h
        subst h
        have h1 : (applyOp s (Op.add title)).nextKey = s.nextKey + 1 := by
          simp [applyOp, addTask]
        have h2 := nextKey_le_runOps (applyOp s (Op.add title)) ops
        show s.nextKey < (runOps (applyOp s (Op.add title)) ops).nextKey
        omega
      | update id title => simp at h
      | del id => simp at h
    · exact ih (applyOp s op) h

theorem countP_insertSorted (p : Task → Bool) (u : Task) (l : List Task) :
    (insertSorted u l).countP p = (u :: l).countP p := by
  induction l with
  | nil => rfl
  | cons t ts ih =>
    by_cases h : u.id ≤ t.id
    · rw [insertSorted_cons_of_le h]
    · rw [insertSorted_cons_of_gt (by omega)]
      rw [List.countP_cons, ih, List.countP_cons, List.countP_cons, List.countP_cons]
      omega

theorem countP_unique_key {l : List Task} {p : Task → Bool} {key : Nat}
    (hp : ∀ t, p t = true → t.id = key)
    (h : l.Pairwise (fun a b => a.id ≠ b.id)) :
    l.countP p ≤ 1 := by
  induction l with
  | nil => simp
  | cons t ts ih =>
    rcases List.pairwise_cons.mp h with ⟨hhead, htail⟩
    rw [List.countP_cons]
    by_cases hpt : p t = true
    · have h0 := hp t hpt
      have hz : ts.countP p = 0 := List.countP_eq_zero.mpr (fun x hx hpx => by
        have h1 := hp x hpx
        have h2 := hhead x hx
        omega)
      simp [hz, hpt]
    · have hf : p t = false := by
        revert hpt
        cases p t <;> simp
      have := ih htail
      simp [hf]
      omega

/-- C9: `getAllTasks` enumerates the stored records in strictly ascending id
order for every store reachable by a sequence of operations (IndexedDB's
`getAll` walks the object store in key order over `keyPath "id"`). -/
theorem getAll_sorted_ascending (ops : List Op) :
    IdSorted (getAllTasks (runOps initDB ops)) :=
  (inv_runOps inv_initDB ops).1

/-- C6: after any operation sequence, `addTask(title)` returns an id strictly
greater than every id the generator previously assigned and than every id
currently stored (so never reused, monotonically increasing); the store then
holds exactly one record with that id and that title, and every id is bound
to at most one record. -/
theorem add_assigns_fresh_id (ops : List Op) (title : String) :
    (∀ i ∈ assignedIds initDB ops, i < (addTask (runOps initDB ops) title).2) ∧
    (∀ t ∈ getAllTasks (runOps initDB ops), t.id < (addTask (runOps initDB ops) title).2) ∧
    ((getAllTasks (addTask (runOps initDB ops) title).1).countP
        (fun t => t.id == (addTask (runOps initDB ops) title).2 && t.title == title) = 1) ∧
    (∀ id, (getAllTasks (addTask (runOps initDB ops) title).1).countP
        (fun t => t.id == id) ≤ 1) := by
  have hinv := inv_runOps inv_initDB ops
  refine ⟨?_, ?_, ?_, ?_⟩
  · intro i hi
    exact assignedIds_lt ops initDB i hi
  · intro t ht
    exact hinv.2 t ht
  · show (insertSorted ⟨(runOps initDB ops).nextKey, title⟩
        (runOps initDB ops).records).countP
        (fun t => t.id == (runOps initDB ops).nextKey && t.title == title) = 1
    rw [countP_insertSorted, List.countP_cons]
    have hz : (runOps initDB ops).records.countP
        (fun t => t.id == (runOps initDB ops).nextKey && t.title == title) = 0 :=
      List.countP_eq_zero.mpr (fun x hx hpx => by
        have hlt := hinv.2 x hx
        simp at hpx
        omega)
    rw [hz]
    simp
  · intro id
    have hsorted : IdSorted ((addTask (runOps initDB ops) title).1.records) :=
      (inv_applyOp hinv (Op.add title)).1
    exact countP_unique_key (fun t ht => by simpa using ht)
      (hsorted.imp (fun hlt => by omega))

/-- C7: `TaskList` keeps at most one row in edit mode: after clicking Edit on
task B while task A (a different id) is being edited, B's row renders the
edit form, A's row renders in read mode, and over any snapshot with distinct
ids at most one row is in edit mode. -/
theorem single_edit_mode (A B : Task) (tasks : List Task)
    (hAB : A.id ≠ B.id)
    (hnd : tasks.Pairwise (fun a b => a.id ≠ b.id)) :
    inEditMode (startEdit (some A) B) B = true ∧
    inEditMode (startEdit (some A) B) A = false ∧
    tasks.countP (inEditMode (startEdit (some A) B)) ≤ 1 := by
  refine ⟨?_, ?_, ?_⟩
  · simp [startEdit, inEditMode]
  · simp [startEdit, inEditMode]
    omega
  · refine @countP_unique_key tasks (inEditMode (startEdit (some A) B)) B.id
      (fun t ht => ?_) hnd
    simp [startEdit, inEditMode] at ht
    omega

/-- C7 witness: with `{1,"a"}` being edited, clicking Edit on `{2,"b"}` puts
only the latter in edit mode over the two-task snapshot. -/
theorem single_edit_mode_witness :
    inEditMode (startEdit (some ⟨1, "a"⟩) ⟨2, "b"⟩) ⟨2, "b"⟩ = true ∧
    inEditMode (startEdit (some ⟨1, "a"⟩) ⟨2, "b"⟩) ⟨1, "a"⟩ = false ∧
    ([⟨1, "a"⟩, ⟨2, "b"⟩] : List Task).countP
      (inEditMode (startEdit (some ⟨1, "a"⟩) ⟨2, "b"⟩)) ≤ 1 :=
  single_edit_mode ⟨1, "a"⟩ ⟨2, "b"⟩ [⟨1, "a"⟩, ⟨2, "b"⟩] (by decide) (by decide)

/-- C8: a form submission whose title trims to the empty string makes no
store call and leaves the store unchanged, for both the add form and the edit
form (the `if (title.trim())` guard rejects it client-side). -/
theorem blank_title_blocks_submission (s : Store) (id : Nat) (title : String)
    (h : trimStr title = "") :
    addFormSubmit s title = (s, false) ∧ editFormSubmit s id title = (s, false) := by
  constructor <;> simp [addFormSubmit, editFormSubmit, h]

/-- C8 witness: submitting the whitespace-only title `"   "` changes nothing
and makes no store call in either form. -/
theorem blank_title_blocks_submission_witness :
    addFormSubmit initDB "   " = (initDB, false) ∧
    editFormSubmit initDB 1 "   " = (initDB, false) :=
  blank_title_blocks_submission initDB 1 "   " (by decide)

/-- C10: when the trimmed title is nonempty, both forms pass the title to the
store exactly as typed — the record created by the add form and the record
written by the edit form carry the untrimmed title, whitespace included. -/
theorem forms_store_title_verbatim (s : Store) (id : Nat) (title : String)
    (h : ¬ trimStr title = "") :
    lookupT s.nextKey (getAllTasks (addFormSubmit s title).1) = some title ∧
    lookupT id (getAllTasks (editFormSubmit s id title).1) = some title := by
  constructor
  · simp only [addFormSubmit, if_neg h, getAllTasks, addTask]
    rw [lookupT_insertSorted]
    simp
  · simp only [editFormSubmit, if_neg h, getAllTasks, updateTask]
    rw [lookupT_insertSorted]
    simp

/-- C10 witness: submitting `"  x  "` stores the title `"  x  "` itself, not
its trimmed form. -/
theorem forms_store_title_verbatim_witness :
    lookupT 1 (getAllTasks (addFormSubmit initDB "  x  ").1) = some "  x  " ∧
    lookupT 7 (getAllTasks (editFormSubmit initDB 7 "  x  ").1) = some "  x  " :=
  forms_store_title_verbatim initDB 7 "  x  " (by decide)

/-- C2: on the snapshot `["Buy milk", "Walk dog"]`, the (spec-modelled)
case-insensitive substring search yields exactly `["Buy milk"]` for `"BUY"`,
the whole snapshot for `""`, and nothing for `"xyz"`. -/
theorem search_filter_examples :
    filterTasks "BUY" demoSnapshot = [⟨1, "Buy milk"⟩] ∧
    filterTasks "" demoSnapshot = demoSnapshot ∧
    filterTasks "xyz" demoSnapshot = [] := by
  refine ⟨?_, ?_, ?_⟩ <;> rfl

end TodoApp
